import Mathlib

set_option maxRecDepth 8000

/-! Verification of the parse-tree-to-DOM translation in
ext/nokogumbo/nokogumbo.c, in its pure-object-model (non-NGLIB) build: byte
strings, the Ruby attribute collection, the dummy-key attribute workaround,
the recursive tree walk, doctype synthesis, and parse-error translation. -/

/-- A byte string: a C or Ruby string as a list of byte values. -/
abbrev Bytes := List Nat

/-- The bytes of an ASCII literal. -/
def bytes (s : String) : Bytes := s.toList.map Char.toNat

/-- C strlen: the number of bytes before the first zero byte. -/
def cstrlen : Bytes → Nat
  | [] => 0
  | b :: bs => if b = 0 then 0 else cstrlen bs + 1

/-- Reading a buffer as a C string: the bytes before the first zero byte
(what rb_str_new2, strcpy, strcat and strcmp see). -/
def ctake (bs : Bytes) : Bytes := bs.take (cstrlen bs)

/-- C `s[0] != 0`: the emptiness test parse applies to the doctype
identifiers. -/
def cNonEmpty : Bytes → Bool
  | [] => false
  | b :: _ => b != 0

/-- The attribute collection of a Ruby element node: ordered (name, value)
pairs. -/
abbrev RubyAttrs := List (Bytes × Bytes)

/-- Modelled from the spec: Ruby `collection.key?(k)` of the DOM-collaborator
interface. -/
def hasKey (el : RubyAttrs) (k : Bytes) : Bool := el.any fun p => p.1 == k

/-- Modelled from the spec: Nokogiri `set_attribute` on a colon-free name is
a literal set — an existing attribute keeps its position and receives the new
value, a new name is appended at the end. -/
def set_attribute (el : RubyAttrs) (k v : Bytes) : RubyAttrs :=
  if hasKey el k then el.map fun p => if p.1 == k then (p.1, v) else p
  else el ++ [(k, v)]

/-- Modelled from the spec: `remove_attribute` removes the attribute under
the given name, if present. -/
def remove_attribute : RubyAttrs → Bytes → RubyAttrs
  | [], _ => []
  | p :: ps, k => if p.1 == k then ps else p :: remove_attribute ps k

/-- Modelled from the spec: `node.attribute(k)` looks the attribute up by
name (Qnil, here none, when absent). -/
def attributeGet (el : RubyAttrs) (k : Bytes) : Option (Bytes × Bytes) :=
  el.find? fun p => p.1 == k

/-- Modelled from the spec: `attr.node_name = n` renames the attribute object
in place, keeping its position and value. -/
def renameAttr : RubyAttrs → Bytes → Bytes → RubyAttrs
  | [], _, _ => []
  | p :: ps, k, n => if p.1 == k then (n, p.2) :: ps else p :: renameAttr ps k n

/-- One step of find_dummy_key's counter: the little-endian successor over
the alphabet a..z (bytes 97..122); running off the used length writes a
fresh letter a, growing the word. -/
def nextDummy : Bytes → Bytes
  | [] => [97]
  | c :: rest => if c = 122 then 97 :: nextDummy rest else (c + 1) :: rest

/-- The candidate keys find_dummy_key's loop tests starting from `d`: the
loop stops at the buffer bound (word length 5) or after `fuel` steps. -/
def candSeq : Bytes → Nat → List Bytes
  | _, 0 => []
  | d, fuel + 1 => if d.length < 5 then d :: candSeq (nextDummy d) fuel else []

/-- find_dummy_key's while loop. The fuel strictly exceeds the loop's true
iteration count (the loop exits at word length 5 after 475254 tests, see
candSeq_length_eq below), so the fuel-out branch is never the one taken. -/
def findDummyLoop (el : RubyAttrs) : Bytes → Nat → Option Bytes
  | _, 0 => none
  | d, fuel + 1 =>
    if d.length < 5 then
      if hasKey el d then findDummyLoop el (nextDummy d) fuel else some d
    else none

/-- find_dummy_key: the first candidate key, starting from "a", that is not
already present on the element; Qnil (none) on exhaustion. -/
def find_dummy_key (el : RubyAttrs) : Option Bytes := findDummyLoop el [97] 1000000

/-- The full candidate sequence of find_dummy_key. -/
def dummyCandidates : List Bytes := candSeq [97] 1000000

/-- The file's own xmlNewProp (the workaround): install name=value on the
element, going through a dummy attribute and an in-place rename when the name
holds a colon (byte 58). First component: the installed name, or none for
the C function's Qnil result; second: the updated collection. The modelled
set_attribute is total, so the code's `r_value == Qnil` early exit is not
taken here. -/
def xmlNewProp (el : RubyAttrs) (name value : Bytes) : Option Bytes × RubyAttrs :=
  let r_name := ctake name
  if 58 ∈ r_name then
    match find_dummy_key el with
    | none => (none, el)
    | some dummy =>
      let el1 := set_attribute el dummy (ctake value)
      let el2 := remove_attribute el1 r_name
      match attributeGet el2 dummy with
      | none => (none, el2)
      | some _ => (some r_name, renameAttr el2 dummy r_name)
  else
    (some r_name, set_attribute el r_name (ctake value))

/-- Gumbo's attribute namespace enum. -/
inductive GumboAttrNamespace where
  | none
  | xlink
  | xml
  | xmlns
deriving DecidableEq

/-- A gumbo attribute: namespace category, name and value (C strings). -/
structure GumboAttribute where
  attr_namespace : GumboAttrNamespace
  name : Bytes
  value : Bytes
deriving DecidableEq

/-- A gumbo parse-tree node. The document variant's payload is handled by
parse, never by the generic walk, so it carries no fields here. -/
inductive GumboNode where
  | document
  | element (name : Bytes) (attributes : List GumboAttribute) (children : List GumboNode)
  | template (name : Bytes) (attributes : List GumboAttribute) (children : List GumboNode)
  | text (t : Bytes)
  | whitespace (t : Bytes)
  | cdata (t : Bytes)
  | comment (t : Bytes)

/-- A built DOM node. -/
inductive XmlNode where
  | element (name : Bytes) (attrs : RubyAttrs) (children : List XmlNode)
  | text (content : Bytes)
  | cdata (content : Bytes)
  | comment (content : Bytes)

/-- walk_element's switch on attr->attr_namespace: the prefixing string `ns`,
none for the C NULL (no prefixing); the XMLNS namespace with name exactly
"xmlns" (a strcmp test) gets NULL. -/
def nsOf (a : GumboAttribute) : Option Bytes :=
  match a.attr_namespace with
  | .xlink => some (bytes "xlink:")
  | .xml => some (bytes "xml:")
  | .xmlns => if ctake a.name = ctake (bytes "xmlns") then none else some (bytes "xmlns:")
  | .none => none

/-- The C string walk_element hands to xmlNewProp for one attribute: the
strcpy/strcat-built `ns ++ name` buffer, or the raw attribute name. -/
def qualCString (a : GumboAttribute) : Bytes :=
  match nsOf a with
  | some ns => ns ++ ctake a.name
  | none => a.name

/-- Installing one attribute: walk_element's loop body. -/
def installAttribute (el : RubyAttrs) (a : GumboAttribute) : Option Bytes × RubyAttrs :=
  xmlNewProp el (qualCString a) a.value

/-- walk_element's attribute loop over the ordered gumbo attributes. -/
def installAttrs (attrs : List GumboAttribute) (el : RubyAttrs) : RubyAttrs :=
  attrs.foldl (fun e a => (installAttribute e a).2) el

/-- The qualified name an attribute is installed under when installation
succeeds. -/
def instName (a : GumboAttribute) : Bytes := ctake (qualCString a)

mutual
/-- walk_tree: build the DOM node for one gumbo node. Text payloads are read
as C strings; the CDATA length argument in the source is strlen of the
payload, so the CDATA branch also copies exactly the bytes before the first
zero byte. -/
def walk_tree : GumboNode → Option XmlNode
  | GumboNode.document => none
  | GumboNode.element name attrs children =>
    some (XmlNode.element (ctake name) (installAttrs attrs []) (walkChildren children))
  | GumboNode.template name attrs children =>
    some (XmlNode.element (ctake name) (installAttrs attrs []) (walkChildren children))
  | GumboNode.text t => some (XmlNode.text (ctake t))
  | GumboNode.whitespace t => some (XmlNode.text (ctake t))
  | GumboNode.cdata t => some (XmlNode.cdata (ctake t))
  | GumboNode.comment t => some (XmlNode.comment (ctake t))

/-- walk_element's and parse's child loop: walk each child in order, append
each produced node as last child, skip children that produce none. -/
def walkChildren : List GumboNode → List XmlNode
  | [] => []
  | c :: cs =>
    match walk_tree c with
    | some n => n :: walkChildren cs
    | none => walkChildren cs
end

/-- walk_element, assembled: the element node with its attributes installed
in order into the fresh element and its children walked in order. -/
def walk_element (name : Bytes) (attrs : List GumboAttribute)
    (children : List GumboNode) : XmlNode :=
  XmlNode.element (ctake name) (installAttrs attrs []) (walkChildren children)

/-- A document's internal subset: doctype name and the two identifiers. -/
structure IntSubset where
  name : Bytes
  external_id : Option Bytes
  system_id : Option Bytes
deriving DecidableEq

/-- One translated parse error, with the instance variables parse sets. -/
structure XmlSyntaxError where
  message : Bytes
  domain : Nat
  code : Nat
  level : Nat
  file : Option Bytes
  line : Nat
  column : Nat
  int1 : Nat
deriving DecidableEq

/-- The built document: internal subset, top-level children, and the errors
property (none when never set). -/
structure XmlDocument where
  internalSubset : Option IntSubset
  children : List XmlNode
  errors : Option (List XmlSyntaxError)

/-- Modelled from the spec: the DOM library's default doctype name and
identifiers, filled in by the document constructor. Their concrete values
never reach a synthesized document: new_html_doc removes or renames the
subset that carries them. -/
def defaultDtdName : Bytes := bytes "html"

/-- Modelled from the spec: the constructor's default public identifier. -/
def defaultPublicId : Bytes := bytes "-//W3C//DTD HTML 4.0 Transitional//EN"

/-- Modelled from the spec: the constructor's default system identifier. -/
def defaultSystemId : Bytes := bytes "http://www.w3.org/TR/REC-html40/loose.dtd"

/-- Modelled from the spec: Nokogiri::HTML5::Document.new(uri, external_id)
builds a fresh document whose internal subset carries the two identifiers
under the library's default doctype name (the constructor accepts no doctype
name); with both arguments nil the library fills in default identifiers. -/
def DocumentNew (uri external_id : Option Bytes) : XmlDocument :=
  if uri = none ∧ external_id = none then
    { internalSubset := some ⟨defaultDtdName, some defaultPublicId, some defaultSystemId⟩,
      children := [], errors := none }
  else
    { internalSubset := some ⟨defaultDtdName, external_id, uri⟩,
      children := [], errors := none }

/-- Modelled from the spec: doc.create_internal_subset(name, external,
system). -/
def create_internal_subset (doc : XmlDocument) (n : Bytes)
    (ext sys : Option Bytes) : XmlDocument :=
  { doc with internalSubset := some ⟨n, ext, sys⟩ }

/-- Modelled from the spec: doc.internal_subset.remove. -/
def removeIntSubset (doc : XmlDocument) : XmlDocument :=
  { doc with internalSubset := none }

/-- Modelled from the spec: doc.internal_subset.node_name = n. -/
def renameIntSubset (doc : XmlDocument) (n : Bytes) : XmlDocument :=
  { doc with internalSubset := doc.internalSubset.map fun s => { s with name := n } }

/-- new_html_doc, object-model build (C parameter order: dtd_name, system,
public). The none result models the C assert(dtd_name) firing in the branch
where an identifier is non-null. -/
def new_html_doc (dtd_name sys pub : Option Bytes) : Option XmlDocument :=
  if sys = none ∧ pub = none then
    let doc := removeIntSubset (DocumentNew none (some []))
    match dtd_name with
    | some n => some (create_internal_subset doc (ctake n) none none)
    | none => some doc
  else
    match dtd_name with
    | none => none
    | some n => some (renameIntSubset (DocumentNew sys pub) (ctake n))

/-- A gumbo parse error: 1-based position and the raw GumboErrorType code. -/
structure GumboError where
  line : Nat
  column : Nat
  type : Nat
deriving DecidableEq

/-- The document record of gumbo's output: doctype data (empty identifier
strings mean absent) and the top-level children. -/
structure GumboDocument where
  has_doctype : Bool
  name : Bytes
  public_identifier : Bytes
  system_identifier : Bytes
  children : List GumboNode

/-- Gumbo's output: the document and the ordered error list. -/
structure GumboOutput where
  document : GumboDocument
  errors : List GumboError

/-- One translated parse error: the caret message rendered by the external
formatter `fmt`, the caller's url as file, gumbo's position and raw type
code, and the fixed constants XML_FROM_PARSER = 1, XML_ERR_INTERNAL_ERROR = 1,
XML_ERR_ERROR = 2. -/
def mkSyntaxError (fmt : GumboError → Bytes) (url : Option Bytes)
    (e : GumboError) : XmlSyntaxError :=
  { message := fmt e, domain := 1, code := 1, level := 2, file := url,
    line := e.line, column := e.column, int1 := e.type }

/-- parse's error loop: rb_ary_push onto rerrors, in emission order. -/
def buildErrors (fmt : GumboError → Bytes) (url : Option Bytes) :
    List GumboError → List XmlSyntaxError → List XmlSyntaxError
  | [], acc => acc
  | e :: es, acc => buildErrors fmt url es (acc ++ [mkSyntaxError fmt url e])

/-- parse: doctype synthesis (empty identifier strings converted to NULL),
the walk over the document's top-level children (in the object-model build
attaching the root and attaching another top-level child are the same
add_child call), then error attachment only when the error list is
nonempty. The none result propagates new_html_doc's assert. `fmt` stands
for gumbo's caret-diagnostic formatter over the parse input, an external
collaborator. -/
def parse (fmt : GumboError → Bytes) (output : GumboOutput)
    (url : Option Bytes) : Option XmlDocument :=
  let gdoc := output.document
  let docOpt :=
    if gdoc.has_doctype then
      let pub := if cNonEmpty gdoc.public_identifier then some gdoc.public_identifier else none
      let sys := if cNonEmpty gdoc.system_identifier then some gdoc.system_identifier else none
      new_html_doc (some gdoc.name) sys pub
    else
      new_html_doc none none none
  match docOpt with
  | none => none
  | some doc =>
    let doc2 := { doc with children := walkChildren gdoc.children }
    if output.errors.length ≠ 0 then
      some { doc2 with errors := some (buildErrors fmt url output.errors []) }
    else
      some doc2

/-- The claim's qualified-name table (C1), written from the claim's words:
the original name prefixed by "" for None, "xlink:" for XLink, "xml:" for
XML, "xmlns:" for XMLNS, except that an XMLNS attribute named exactly
"xmlns" receives no prefix. -/
def claimQualName (a : GumboAttribute) : Bytes :=
  (match a.attr_namespace with
   | .none => []
   | .xlink => bytes "xlink:"
   | .xml => bytes "xml:"
   | .xmlns => if a.name = bytes "xmlns" then [] else bytes "xmlns:") ++ a.name

/-- Words over the alphabet a..z: what the dummy counter's buffer holds. -/
def WFchars (d : Bytes) : Prop := ∀ c ∈ d, 97 ≤ c ∧ c ≤ 122

/-- A counter word proper: nonempty and over a..z. -/
def WFword (d : Bytes) : Prop := d ≠ [] ∧ WFchars d

/-- The little-endian base-26 value of a counter word. -/
def wval : Bytes → Nat
  | [] => 0
  | c :: rest => (c - 97) + 26 * wval rest

/-- How many words precede the length-n words in the counter's enumeration. -/
def wbase : Nat → Nat
  | 0 => 0
  | n + 1 => wbase n + if n = 0 then 0 else 26 ^ n

/-- The position of a word in find_dummy_key's enumeration. -/
def wrank (d : Bytes) : Nat := wbase d.length + wval d

/-- Shorter first, same length colexicographically (reversed words compared
lexicographically): the order in which find_dummy_key enumerates keys. -/
def shortColexLt (a b : Bytes) : Prop :=
  a.length < b.length ∨ (a.length = b.length ∧ List.Lex (· < ·) a.reverse b.reverse)

/-- The alphabet a..z as bytes. -/
def alphabet : List Nat := (List.range 26).map (· + 97)

/-- All words of the given length over a..z. -/
def wordsOfLen : Nat → List Bytes
  | 0 => [[]]
  | n + 1 => (alphabet.map fun c => (wordsOfLen n).map (c :: ·)).flatten

/-- Every candidate key find_dummy_key can ever test. -/
def allWords : List Bytes := wordsOfLen 1 ++ wordsOfLen 2 ++ wordsOfLen 3 ++ wordsOfLen 4

/-- An element carrying every candidate key: it exhausts find_dummy_key. -/
def elAll : RubyAttrs := allWords.map fun w => (w, [])

/-- a..z and "aa" all taken: the concrete element refuting the claimed
lexicographic enumeration order (the code then returns "ba", yet "ab" is
free and lexicographically earlier). -/
def elC7 : RubyAttrs := (alphabet.map fun c => ([c], ([] : Bytes))) ++ [([97, 97], [])]


/-! ### C-string lemmas -/

theorem cstrlen_le_length (bs : Bytes) : cstrlen bs ≤ bs.length := by
  induction bs with
  | nil => simp [cstrlen]
  | cons b bs ih =>
    by_cases h : b = 0
    · simp [cstrlen, h]
    · simp [cstrlen, h]; omega

theorem length_ctake (bs : Bytes) : (ctake bs).length = cstrlen bs := by
  simp [ctake, List.length_take, Nat.min_eq_left (cstrlen_le_length bs)]

theorem ctake_cons_ne (b : Nat) (bs : Bytes) (h : b ≠ 0) :
    ctake (b :: bs) = b :: ctake bs := by
  simp [ctake, cstrlen, h]

theorem ctake_cons_zero (bs : Bytes) : ctake (0 :: bs) = [] := by
  simp [ctake, cstrlen]

theorem zero_not_mem_ctake (bs : Bytes) : (0 : Nat) ∉ ctake bs := by
  induction bs with
  | nil => simp [ctake, cstrlen]
  | cons b bs ih =>
    by_cases h : b = 0
    · subst h; simp [ctake_cons_zero]
    · rw [ctake_cons_ne b bs h]
      intro hc
      rcases List.mem_cons.mp hc with h0 | h0
      · exact h h0.symm
      · exact ih h0

theorem ctake_of_not_mem {bs : Bytes} (h : (0 : Nat) ∉ bs) : ctake bs = bs := by
  induction bs with
  | nil => rfl
  | cons b bs ih =>
    have hb : b ≠ 0 := fun h0 => h (h0 ▸ List.mem_cons_self b bs)
    rw [ctake_cons_ne b bs hb, ih fun h0 => h (List.mem_cons_of_mem b h0)]

theorem ctake_ctake (bs : Bytes) : ctake (ctake bs) = ctake bs :=
  ctake_of_not_mem (zero_not_mem_ctake bs)

/-! ### Ruby attribute-collection lemmas -/

theorem hasKey_iff_mem {el : RubyAttrs} {k : Bytes} :
    hasKey el k = true ↔ k ∈ el.map Prod.fst := by
  simp only [hasKey, List.any_eq_true, List.mem_map, beq_iff_eq]

theorem hasKey_append (el1 el2 : RubyAttrs) (k : Bytes) :
    hasKey (el1 ++ el2) k = (hasKey el1 k || hasKey el2 k) := by
  simp [hasKey, List.any_append]

theorem set_attribute_of_not_hasKey {el : RubyAttrs} {k : Bytes} (v : Bytes)
    (h : hasKey el k = false) : set_attribute el k v = el ++ [(k, v)] := by
  simp [set_attribute, h]

theorem remove_attribute_of_not_hasKey {el : RubyAttrs} {k : Bytes}
    (h : hasKey el k = false) : remove_attribute el k = el := by
  induction el with
  | nil => rfl
  | cons p ps ih =>
    rw [hasKey, List.any_cons, Bool.or_eq_false_iff] at h
    rw [remove_attribute, if_neg (by simp [h.1]), ih h.2]

theorem remove_attribute_append_single {k d : Bytes} (el : RubyAttrs) (v : Bytes)
    (h : k ≠ d) :
    remove_attribute (el ++ [(d, v)]) k = remove_attribute el k ++ [(d, v)] := by
  induction el with
  | nil =>
    simp only [List.nil_append, remove_attribute]
    rw [if_neg (by simp [Ne.symm h])]
  | cons p ps ih =>
    by_cases hp : p.1 == k
    · simp [remove_attribute, hp]
    · simp [remove_attribute, hp, ih]

theorem hasKey_remove_imp {el : RubyAttrs} {k k' : Bytes}
    (h : hasKey (remove_attribute el k) k' = true) : hasKey el k' = true := by
  induction el with
  | nil => exact h
  | cons p ps ih =>
    rw [remove_attribute] at h
    by_cases hp : p.1 == k
    · rw [if_pos hp] at h
      rw [hasKey, List.any_cons]
      rw [hasKey] at h
      simp [h]
    · rw [if_neg hp] at h
      rw [hasKey, List.any_cons] at h ⊢
      rcases Bool.or_eq_true_iff.mp h with h' | h'
      · simp [h']
      · have h2 : hasKey ps k' = true := ih h'
        rw [hasKey] at h2
        simp [h2]

theorem attributeGet_append_single {el : RubyAttrs} {k : Bytes} (v : Bytes)
    (h : hasKey el k = false) :
    attributeGet (el ++ [(k, v)]) k = some (k, v) := by
  induction el with
  | nil => simp [attributeGet, List.find?]
  | cons p ps ih =>
    rw [hasKey, List.any_cons, Bool.or_eq_false_iff] at h
    rw [List.cons_append, attributeGet, List.find?_cons_of_neg _ (by simp [h.1])]
    exact ih h.2

theorem renameAttr_append_single {el : RubyAttrs} {k : Bytes} (v n : Bytes)
    (h : hasKey el k = false) :
    renameAttr (el ++ [(k, v)]) k n = el ++ [(n, v)] := by
  induction el with
  | nil => simp [renameAttr]
  | cons p ps ih =>
    rw [hasKey, List.any_cons, Bool.or_eq_false_iff] at h
    simp [renameAttr, h.1, ih h.2]

theorem countP_eq_zero_of_not_hasKey {el : RubyAttrs} {k : Bytes}
    (h : hasKey el k = false) :
    el.countP (fun p => p.1 == k) = 0 := by
  induction el with
  | nil => rfl
  | cons p ps ih =>
    rw [hasKey, List.any_cons, Bool.or_eq_false_iff] at h
    rw [List.countP_cons_of_neg _ _ (by simp [h.1]), ih h.2]

theorem hasKey_remove_self_of_nodup {el : RubyAttrs} {k : Bytes}
    (h : (el.map Prod.fst).Nodup) :
    hasKey (remove_attribute el k) k = false := by
  induction el with
  | nil => rfl
  | cons p ps ih =>
    rw [List.map_cons, List.nodup_cons] at h
    rw [remove_attribute]
    by_cases hp : p.1 == k
    · rw [if_pos hp]
      have hk : p.1 = k := by simpa using hp
      cases h' : hasKey ps k with
      | false => rfl
      | true => exact absurd (hk ▸ hasKey_iff_mem.mp h') h.1
    · rw [if_neg hp, hasKey, List.any_cons]
      simp only [hp, Bool.false_or]
      exact ih h.2

theorem countP_remove_eq_zero {el : RubyAttrs} {k : Bytes}
    (h : (el.map Prod.fst).Nodup) :
    (remove_attribute el k).countP (fun p => p.1 == k) = 0 := by
  induction el with
  | nil => rfl
  | cons p ps ih =>
    rw [List.map_cons, List.nodup_cons] at h
    rw [remove_attribute]
    by_cases hp : p.1 == k
    · rw [if_pos hp]
      have hk : p.1 = k := by simpa using hp
      apply countP_eq_zero_of_not_hasKey
      cases h' : hasKey ps k with
      | false => rfl
      | true => exact absurd (hk ▸ hasKey_iff_mem.mp h') h.1
    · rw [if_neg hp, List.countP_cons_of_neg _ _ (by simp [hp])]
      exact ih h.2

theorem attributeGet_set_self (el : RubyAttrs) (k v : Bytes) :
    attributeGet (set_attribute el k v) k = some (k, v) := by
  by_cases h : hasKey el k
  · rw [set_attribute, if_pos h]
    induction el with
    | nil => simp [hasKey] at h
    | cons p ps ih =>
      rw [hasKey, List.any_cons, Bool.or_eq_true_iff] at h
      by_cases hp : p.1 == k
      · have hk : p.1 = k := by simpa using hp
        simp [attributeGet, List.find?, hp, hk]
      · rcases h with h' | h'
        · exact absurd h' hp
        · rw [List.map_cons, if_neg hp, attributeGet,
            List.find?_cons_of_neg _ (by simp [hp])]
          exact ih h'
  · rw [set_attribute, if_neg h]
    exact attributeGet_append_single v (by simpa using h)

/-! ### find_dummy_key: loop characterization -/

theorem findDummyLoop_eq_find? (el : RubyAttrs) :
    ∀ (fuel : Nat) (d : Bytes),
      findDummyLoop el d fuel = (candSeq d fuel).find? fun k => !hasKey el k := by
  intro fuel
  induction fuel with
  | zero => intro d; rfl
  | succ f ih =>
    intro d
    by_cases h5 : d.length < 5
    · rw [findDummyLoop, candSeq, if_pos h5, if_pos h5]
      cases hk : hasKey el d with
      | true => rw [if_pos rfl, List.find?_cons_of_neg _ (by simp [hk]), ih]
      | false => rw [if_neg (by simp), List.find?_cons_of_pos _ (by simp [hk])]
    · rw [findDummyLoop, candSeq, if_neg h5, if_neg h5, List.find?_nil]

theorem find_dummy_key_eq_find? (el : RubyAttrs) :
    find_dummy_key el = dummyCandidates.find? fun k => !hasKey el k :=
  findDummyLoop_eq_find? el 1000000 [97]

/-! ### The counter's rank -/

theorem wval_lt_of_WFchars {d : Bytes} (h : WFchars d) : wval d < 26 ^ d.length := by
  induction d with
  | nil => simp [wval]
  | cons b rest ih =>
    have hb := h b (by simp)
    have hrest : WFchars rest := fun c hc => h c (by simp [hc])
    have h1 := ih hrest
    have h2 : 26 ^ (b :: rest).length = 26 * 26 ^ rest.length := by
      rw [List.length_cons, pow_succ]; ring
    rw [wval, h2]
    omega

theorem nextDummy_ne_nil (d : Bytes) : nextDummy d ≠ [] := by
  cases d with
  | nil => simp [nextDummy]
  | cons c rest =>
    rw [nextDummy]
    by_cases h : c = 122 <;> simp [h]

theorem WFchars_nextDummy {d : Bytes} (h : WFchars d) : WFchars (nextDummy d) := by
  induction d with
  | nil =>
    intro c hc
    rw [nextDummy] at hc
    rcases List.mem_singleton.mp hc with rfl
    omega
  | cons b rest ih =>
    have hb := h b (by simp)
    have hrest : WFchars rest := fun c hc => h c (by simp [hc])
    intro c hc
    rw [nextDummy] at hc
    by_cases hz : b = 122
    · rw [if_pos hz] at hc
      rcases List.mem_cons.mp hc with rfl | hc'
      · omega
      · exact ih hrest c hc'
    · rw [if_neg hz] at hc
      rcases List.mem_cons.mp hc with rfl | hc'
      · omega
      · exact hrest c hc'

theorem nextDummy_spec :
    ∀ (d : Bytes), WFchars d → d ≠ [] →
      ((nextDummy d).length = d.length ∧ wval (nextDummy d) = wval d + 1
          ∧ wval d + 1 < 26 ^ d.length)
      ∨ ((nextDummy d).length = d.length + 1 ∧ wval (nextDummy d) = 0
          ∧ wval d + 1 = 26 ^ d.length) := by
  intro d
  induction d with
  | nil => intro _ hne; exact absurd rfl hne
  | cons b rest ih =>
    intro h _
    have hb := h b (by simp)
    have hrest : WFchars rest := fun c hc => h c (by simp [hc])
    by_cases hz : b = 122
    · subst hz
      cases rest with
      | nil =>
        right
        refine ⟨rfl, rfl, by decide⟩
      | cons r rs =>
        have e1 : wval (97 :: nextDummy (r :: rs))
            = (97 - 97) + 26 * wval (nextDummy (r :: rs)) := rfl
        have e2 : wval (122 :: r :: rs) = (122 - 97) + 26 * wval (r :: rs) := rfl
        have e3 : (122 :: r :: rs).length = (r :: rs).length + 1 := rfl
        have hN : 0 < 26 ^ (r :: rs).length := Nat.pos_pow_of_pos _ (by norm_num)
        rcases ih hrest (by simp) with ⟨hl, hv, hbd⟩ | ⟨hl, hv, hbd⟩
        · left
          refine ⟨?_, ?_, ?_⟩
          · rw [nextDummy, if_pos rfl]
            simp [hl]
          · rw [nextDummy, if_pos rfl, e1, e2, hv]
            omega
          · rw [e2, e3, pow_succ]
            omega
        · right
          refine ⟨?_, ?_, ?_⟩
          · rw [nextDummy, if_pos rfl]
            simp [hl]
          · rw [nextDummy, if_pos rfl, e1, hv]
          · rw [e2, e3, pow_succ]
            omega
    · have e3 : wval ((b + 1) :: rest) = (b + 1 - 97) + 26 * wval rest := rfl
      have e4 : wval (b :: rest) = (b - 97) + 26 * wval rest := rfl
      have e5 : (b :: rest).length = rest.length + 1 := rfl
      have hv := wval_lt_of_WFchars hrest
      left
      refine ⟨?_, ?_, ?_⟩
      · rw [nextDummy, if_neg hz]
        simp
      · rw [nextDummy, if_neg hz, e3, e4]
        omega
      · rw [e4, e5, pow_succ]
        omega

theorem wbase_succ_of_pos {n : Nat} (h : 1 ≤ n) : wbase (n + 1) = wbase n + 26 ^ n := by
  rw [wbase, if_neg (by omega)]

theorem wbase_mono : ∀ {m n : Nat}, m ≤ n → wbase m ≤ wbase n := by
  intro m n h
  induction h with
  | refl => exact Nat.le_refl _
  | step _ ih =>
    refine Nat.le_trans ih ?_
    rw [wbase]
    exact Nat.le_add_right _ _

theorem wbase_five : wbase 5 = 475254 := by norm_num [wbase]

theorem wrank_nextDummy {d : Bytes} (h : WFword d) :
    wrank (nextDummy d) = wrank d + 1 := by
  rcases nextDummy_spec d h.2 h.1 with ⟨hl, hv, _⟩ | ⟨hl, hv, hpow⟩
  · rw [wrank, wrank, hl, hv]; omega
  · have hpos : 1 ≤ d.length := List.length_pos.mpr h.1
    rw [wrank, wrank, hl, hv, wbase_succ_of_pos hpos]
    omega

theorem wrank_lt_of_short {d : Bytes} (h : WFword d) (hlen : d.length < 5) :
    wrank d < 475254 := by
  have hpos : 1 ≤ d.length := List.length_pos.mpr h.1
  have hv := wval_lt_of_WFchars h.2
  have h1 : wbase d.length + 26 ^ d.length = wbase (d.length + 1) :=
    (wbase_succ_of_pos hpos).symm
  have h2 : wbase (d.length + 1) ≤ wbase 5 := wbase_mono (by omega)
  rw [wbase_five] at h2
  rw [wrank]
  omega

theorem wrank_ge_of_long {d : Bytes} (hlen : 5 ≤ d.length) : 475254 ≤ wrank d := by
  have h2 : wbase 5 ≤ wbase d.length := wbase_mono hlen
  rw [wbase_five] at h2
  rw [wrank]
  omega

theorem WFword_nextDummy {d : Bytes} (h : WFword d) : WFword (nextDummy d) :=
  ⟨nextDummy_ne_nil d, WFchars_nextDummy h.2⟩

theorem candSeq_length_eq :
    ∀ (fuel : Nat) (d : Bytes), WFword d →
      (candSeq d fuel).length = min fuel (475254 - wrank d) := by
  intro fuel
  induction fuel with
  | zero => intro d _; simp [candSeq]
  | succ f ih =>
    intro d hd
    by_cases h5 : d.length < 5
    · rw [candSeq, if_pos h5, List.length_cons, ih (nextDummy d) (WFword_nextDummy hd),
        wrank_nextDummy hd]
      have := wrank_lt_of_short hd h5
      omega
    · rw [candSeq, if_neg h5, List.length_nil]
      have := wrank_ge_of_long (d := d) (by omega)
      omega

theorem WFword_a : WFword [97] := by
  constructor
  · simp
  · intro c hc
    rcases List.mem_singleton.mp hc with rfl
    omega

theorem wrank_a : wrank [97] = 0 := by
  simp [wrank, wval, wbase]

theorem dummyCandidates_length : dummyCandidates.length = 475254 := by
  rw [dummyCandidates, candSeq_length_eq 1000000 [97] WFword_a, wrank_a]
  omega

theorem candSeq_head :
    ∀ (f : Nat) (d k : Bytes), (candSeq d f).head? = some k → k = d := by
  intro f d k h
  cases f with
  | zero => simp [candSeq] at h
  | succ f' =>
    rw [candSeq] at h
    by_cases h5 : d.length < 5
    · rw [if_pos h5] at h
      exact (Option.some.inj h).symm
    · rw [if_neg h5] at h
      simp at h

theorem candSeq_chain' {R : Bytes → Bytes → Prop}
    (hR : ∀ d, WFword d → R d (nextDummy d)) :
    ∀ (fuel : Nat) (d : Bytes), WFword d → List.Chain' R (candSeq d fuel) := by
  intro fuel
  induction fuel with
  | zero => intro d _; simp [candSeq]
  | succ f ih =>
    intro d hd
    by_cases h5 : d.length < 5
    · rw [candSeq, if_pos h5, List.chain'_cons']
      refine ⟨?_, ih (nextDummy d) (WFword_nextDummy hd)⟩
      intro y hy
      rw [candSeq_head f (nextDummy d) y (by simpa using hy)]
      exact hR d hd
    · rw [candSeq, if_neg h5]
      simp

theorem candSeq_mem_wf :
    ∀ (fuel : Nat) (d : Bytes), WFword d →
      ∀ k ∈ candSeq d fuel, WFword k ∧ k.length ≤ 4 := by
  intro fuel
  induction fuel with
  | zero => intro d _ k hk; simp [candSeq] at hk
  | succ f ih =>
    intro d hd k hk
    by_cases h5 : d.length < 5
    · rw [candSeq, if_pos h5] at hk
      rcases List.mem_cons.mp hk with rfl | hk'
      · exact ⟨hd, by omega⟩
      · exact ih (nextDummy d) (WFword_nextDummy hd) k hk'
    · rw [candSeq, if_neg h5] at hk
      simp at hk

theorem dummyCandidates_nodup : dummyCandidates.Nodup := by
  have hchain : List.Chain' (fun a b => wrank a < wrank b) dummyCandidates :=
    candSeq_chain' (fun d hd => by rw [wrank_nextDummy hd]; omega) 1000000 [97] WFword_a
  haveI : IsTrans Bytes (fun a b => wrank a < wrank b) :=
    ⟨fun _ _ _ hab hbc => Nat.lt_trans hab hbc⟩
  have hpair := List.chain'_iff_pairwise.mp hchain
  exact hpair.imp fun hab => by
    intro he
    subst he
    omega

theorem find_dummy_key_spec {el : RubyAttrs} {k : Bytes}
    (h : find_dummy_key el = some k) :
    hasKey el k = false ∧ WFword k ∧ k.length ≤ 4 := by
  rw [find_dummy_key_eq_find?] at h
  have h1 := List.find?_some h
  have h2 := List.mem_of_find?_eq_some h
  have h3 := candSeq_mem_wf 1000000 [97] WFword_a k h2
  exact ⟨by simpa using h1, h3.1, h3.2⟩

theorem find_dummy_key_none_bound {el : RubyAttrs}
    (h : find_dummy_key el = none) : 475254 ≤ el.length := by
  rw [find_dummy_key_eq_find?] at h
  have hall : ∀ k ∈ dummyCandidates, hasKey el k = true := by
    intro k hk
    have := List.find?_eq_none.mp h k hk
    simpa using this
  have hsub : dummyCandidates ⊆ el.map Prod.fst := fun k hk =>
    hasKey_iff_mem.mp (hall k hk)
  have hle := (dummyCandidates_nodup.subperm hsub).length_le
  rw [dummyCandidates_length] at hle
  simpa using hle

theorem find_dummy_key_isSome_of_small (el : RubyAttrs) (h : el.length < 475254) :
    ∃ k, find_dummy_key el = some k := by
  cases h' : find_dummy_key el with
  | some k => exact ⟨k, rfl⟩
  | none => exact absurd (find_dummy_key_none_bound h') (by omega)

/-! ### The enumeration order -/

theorem lex_append_last {p : Bytes} {a b : Nat} (h : a < b) :
    List.Lex (· < ·) (p ++ [a]) (p ++ [b]) := by
  induction p with
  | nil => exact List.Lex.rel h
  | cons x p ih => exact List.Lex.cons ih

theorem lex_append_of_same_len :
    ∀ {p q : Bytes}, List.Lex (· < ·) p q → p.length = q.length →
      ∀ (x y : Nat), List.Lex (· < ·) (p ++ [x]) (q ++ [y]) := by
  intro p q h
  induction h with
  | nil => intro hlen; simp at hlen
  | @rel a l₁ b l₂ hr => intro _ x y; exact List.Lex.rel hr
  | @cons a l₁ l₂ h' ih =>
    intro hlen x y
    exact List.Lex.cons (ih (by simpa using hlen) x y)

theorem shortColex_nextDummy : ∀ (d : Bytes), WFchars d → shortColexLt d (nextDummy d) := by
  intro d
  induction d with
  | nil => intro _; left; simp [nextDummy]
  | cons b rest ih =>
    intro h
    have hb := h b (by simp)
    have hrest : WFchars rest := fun c hc => h c (by simp [hc])
    by_cases hz : b = 122
    · subst hz
      rcases ih hrest with hlen | ⟨hlen, hlex⟩
      · left
        rw [nextDummy, if_pos rfl]
        simpa using hlen
      · right
        constructor
        · rw [nextDummy, if_pos rfl]
          simpa using hlen
        · rw [nextDummy, if_pos rfl, List.reverse_cons, List.reverse_cons]
          exact lex_append_of_same_len hlex (by simpa using hlen) 122 97
    · right
      constructor
      · rw [nextDummy, if_neg hz]
        simp
      · rw [nextDummy, if_neg hz, List.reverse_cons, List.reverse_cons]
        exact lex_append_last (by omega)

theorem dummyCandidates_chain_colex : List.Chain' shortColexLt dummyCandidates :=
  candSeq_chain' (fun d hd => shortColex_nextDummy d hd.2) 1000000 [97] WFword_a

theorem dummyCandidates_head : dummyCandidates.head? = some [97] := rfl

/-! ### Exhaustion: the element holding every candidate -/

theorem mem_alphabet {c : Nat} : c ∈ alphabet ↔ 97 ≤ c ∧ c ≤ 122 := by
  simp only [alphabet, List.mem_map, List.mem_range]
  constructor
  · rintro ⟨i, hi, rfl⟩; omega
  · rintro ⟨h1, h2⟩; exact ⟨c - 97, by omega, by omega⟩

theorem mem_wordsOfLen (k : Bytes) (h : WFchars k) : k ∈ wordsOfLen k.length := by
  induction k with
  | nil => simp [wordsOfLen]
  | cons c rest ih =>
    have hc := h c (by simp)
    have hrest : WFchars rest := fun x hx => h x (by simp [hx])
    show (c :: rest) ∈ wordsOfLen (rest.length + 1)
    rw [wordsOfLen, List.mem_flatten]
    exact ⟨(wordsOfLen rest.length).map (c :: ·),
      List.mem_map_of_mem _ (mem_alphabet.mpr hc),
      List.mem_map_of_mem _ (ih hrest)⟩

theorem mem_allWords (k : Bytes) (h : WFword k) (hlen : k.length ≤ 4) :
    k ∈ allWords := by
  have hm := mem_wordsOfLen k h.2
  have h1 : 1 ≤ k.length := List.length_pos.mpr h.1
  have : k.length = 1 ∨ k.length = 2 ∨ k.length = 3 ∨ k.length = 4 := by omega
  rcases this with h' | h' | h' | h' <;> rw [h'] at hm <;> simp [allWords, hm]

theorem hasKey_elAll {k : Bytes} (h : k ∈ allWords) : hasKey elAll k = true := by
  apply hasKey_iff_mem.mpr
  have : elAll.map Prod.fst = allWords := by
    rw [elAll, List.map_map]
    exact List.map_id allWords
  rw [this]
  exact h

theorem find_dummy_key_elAll : find_dummy_key elAll = none := by
  rw [find_dummy_key_eq_find?]
  apply List.find?_eq_none.mpr
  intro k hk
  have hwf := candSeq_mem_wf 1000000 [97] WFword_a k hk
  have := hasKey_elAll (mem_allWords k hwf.1 hwf.2)
  simp [this]

/-! ### xmlNewProp path lemmas -/

theorem xmlNewProp_nocolon (el : RubyAttrs) (name value : Bytes)
    (hc : 58 ∉ ctake name) :
    xmlNewProp el name value = (some (ctake name), set_attribute el (ctake name) (ctake value)) := by
  simp [xmlNewProp, hc]

theorem xmlNewProp_colon_spec (el : RubyAttrs) (name value : Bytes)
    (hc : 58 ∈ ctake name) {dmy : Bytes} (hfind : find_dummy_key el = some dmy) :
    xmlNewProp el name value =
      (some (ctake name),
        remove_attribute el (ctake name) ++ [(ctake name, ctake value)]) := by
  obtain ⟨hfree, hwf, _⟩ := find_dummy_key_spec hfind
  have hne : dmy ≠ ctake name := by
    intro he
    have := hwf.2 58 (he ▸ hc)
    omega
  have h1 : set_attribute el dmy (ctake value) = el ++ [(dmy, ctake value)] :=
    set_attribute_of_not_hasKey _ hfree
  have h2 : remove_attribute (el ++ [(dmy, ctake value)]) (ctake name)
      = remove_attribute el (ctake name) ++ [(dmy, ctake value)] :=
    remove_attribute_append_single el _ (fun he => hne he.symm)
  have h3 : hasKey (remove_attribute el (ctake name)) dmy = false := by
    cases h' : hasKey (remove_attribute el (ctake name)) dmy with
    | false => rfl
    | true => exact absurd (hasKey_remove_imp h') (by simp [hfree])
  have h4 : attributeGet (remove_attribute el (ctake name) ++ [(dmy, ctake value)]) dmy
      = some (dmy, ctake value) := attributeGet_append_single _ h3
  have h5 : renameAttr (remove_attribute el (ctake name) ++ [(dmy, ctake value)]) dmy (ctake name)
      = remove_attribute el (ctake name) ++ [(ctake name, ctake value)] :=
    renameAttr_append_single _ _ h3
  simp only [xmlNewProp, if_pos hc, hfind, h1, h2, h4, h5]

theorem xmlNewProp_fail_frame (el : RubyAttrs) (name value : Bytes)
    (h : (xmlNewProp el name value).1 = none) :
    (xmlNewProp el name value).2 = el := by
  by_cases hc : 58 ∈ ctake name
  · cases hfind : find_dummy_key el with
    | none => simp [xmlNewProp, hc, hfind]
    | some dmy =>
      rw [xmlNewProp_colon_spec el name value hc hfind] at h
      simp at h
  · rw [xmlNewProp_nocolon el name value hc] at h
    simp at h

/-! ### Installing attributes in order -/

theorem installAttribute_fresh (el : RubyAttrs) (a : GumboAttribute)
    (hfresh : hasKey el (instName a) = false) (hsmall : el.length < 475254) :
    installAttribute el a = (some (instName a), el ++ [(instName a, ctake a.value)]) := by
  rw [installAttribute]
  by_cases hc : 58 ∈ ctake (qualCString a)
  · obtain ⟨dmy, hfind⟩ := find_dummy_key_isSome_of_small el hsmall
    rw [xmlNewProp_colon_spec el _ _ hc hfind]
    rw [instName] at hfresh ⊢
    rw [remove_attribute_of_not_hasKey hfresh]
  · rw [xmlNewProp_nocolon el _ _ hc]
    rw [instName] at hfresh ⊢
    rw [set_attribute_of_not_hasKey _ hfresh]

theorem installAttrs_append_spec :
    ∀ (attrs : List GumboAttribute) (el : RubyAttrs),
      (el.map Prod.fst ++ attrs.map instName).Nodup →
      el.length + attrs.length ≤ 475254 →
      installAttrs attrs el = el ++ attrs.map fun a => (instName a, ctake a.value) := by
  intro attrs
  induction attrs with
  | nil => intro el _ _; simp [installAttrs]
  | cons a rest ih =>
    intro el hnodup hlen
    have hfresh : hasKey el (instName a) = false := by
      rcases List.nodup_append.mp hnodup with ⟨_, _, hdisj⟩
      cases h' : hasKey el (instName a) with
      | false => rfl
      | true =>
        exact absurd (by simp : instName a ∈ instName a :: rest.map instName)
          (hdisj (hasKey_iff_mem.mp h'))
    have hstep := installAttribute_fresh el a hfresh (by simp at hlen; omega)
    rw [installAttrs, List.foldl_cons, hstep]
    have hre : installAttrs rest (el ++ [(instName a, ctake a.value)])
        = (el ++ [(instName a, ctake a.value)]) ++ rest.map fun a => (instName a, ctake a.value) := by
      apply ih
      · have : (el ++ [(instName a, ctake a.value)]).map Prod.fst ++ rest.map instName
            = el.map Prod.fst ++ instName a :: rest.map instName := by
          simp
        rw [this]
        exact hnodup
      · simp at hlen ⊢
        omega
    rw [installAttrs] at hre
    rw [hre]
    simp

theorem walkChildren_eq_filterMap :
    ∀ (cs : List GumboNode), walkChildren cs = cs.filterMap walk_tree := by
  intro cs
  induction cs with
  | nil => simp [walkChildren]
  | cons c cs ih =>
    rw [walkChildren]
    cases h : walk_tree c <;> simp [h, ih]

/-! ### Error translation and parse -/

theorem buildErrors_eq_map (fmt : GumboError → Bytes) (url : Option Bytes) :
    ∀ (es : List GumboError) (acc : List XmlSyntaxError),
      buildErrors fmt url es acc = acc ++ es.map (mkSyntaxError fmt url) := by
  intro es
  induction es with
  | nil => intro acc; simp [buildErrors]
  | cons e es ih =>
    intro acc
    rw [buildErrors, ih]
    simp

theorem new_html_doc_none_iff (dtd sys pub : Option Bytes) :
    new_html_doc dtd sys pub = none ↔ dtd = none ∧ ¬(sys = none ∧ pub = none) := by
  rw [new_html_doc.eq_def]
  by_cases h : sys = none ∧ pub = none
  · rw [if_pos h]
    cases dtd <;> simp [h]
  · rw [if_neg h]
    cases dtd <;> simp [h]

theorem new_html_doc_some_isSome (n : Bytes) (sys pub : Option Bytes) :
    (new_html_doc (some n) sys pub).isSome = true := by
  cases h : new_html_doc (some n) sys pub with
  | some d => rfl
  | none => simp [new_html_doc_none_iff] at h

theorem parse_eq_some (fmt : GumboError → Bytes) (output : GumboOutput)
    (url : Option Bytes) (doc0 : XmlDocument)
    (h : (if output.document.has_doctype then
            new_html_doc (some output.document.name)
              (if cNonEmpty output.document.system_identifier
                then some output.document.system_identifier else none)
              (if cNonEmpty output.document.public_identifier
                then some output.document.public_identifier else none)
          else new_html_doc none none none) = some doc0) :
    parse fmt output url = some
      { doc0 with
        children := walkChildren output.document.children,
        errors := if output.errors.length ≠ 0
          then some (buildErrors fmt url output.errors []) else doc0.errors } := by
  simp only [parse]
  rw [h]
  by_cases he : output.errors.length ≠ 0 <;> simp [he]

theorem new_html_doc_nodtd :
    new_html_doc none none none = some (removeIntSubset (DocumentNew none (some []))) := by
  rw [new_html_doc.eq_def, if_pos ⟨rfl, rfl⟩]

theorem parse_isSome (fmt : GumboError → Bytes) (output : GumboOutput)
    (url : Option Bytes) : (parse fmt output url).isSome = true := by
  by_cases hd : output.document.has_doctype
  · obtain ⟨d, hd'⟩ := Option.isSome_iff_exists.mp
      (new_html_doc_some_isSome output.document.name
        (if cNonEmpty output.document.system_identifier
          then some output.document.system_identifier else none)
        (if cNonEmpty output.document.public_identifier
          then some output.document.public_identifier else none))
    rw [parse_eq_some fmt output url d (by rw [if_pos hd]; exact hd')]
    rfl
  · rw [parse_eq_some fmt output url _ (by rw [if_neg hd]; exact new_html_doc_nodtd)]
    rfl

/-! ### Success-path characterization shared by the attribute claims -/

theorem xmlNewProp_name_get (el : RubyAttrs) (name value : Bytes)
    (hnodup : (el.map Prod.fst).Nodup)
    (hsucc : (xmlNewProp el name value).1.isSome = true) :
    (xmlNewProp el name value).1 = some (ctake name)
    ∧ attributeGet (xmlNewProp el name value).2 (ctake name)
        = some (ctake name, ctake value) := by
  by_cases hc : 58 ∈ ctake name
  · cases hfind : find_dummy_key el with
    | none => simp [xmlNewProp, hc, hfind] at hsucc
    | some dmy =>
      rw [xmlNewProp_colon_spec el name value hc hfind]
      exact ⟨rfl, attributeGet_append_single _ (hasKey_remove_self_of_nodup hnodup)⟩
  · rw [xmlNewProp_nocolon el name value hc]
    exact ⟨rfl, attributeGet_set_self el (ctake name) (ctake value)⟩

theorem ctake_qualCString_eq_claim (a : GumboAttribute) (hz : (0 : Nat) ∉ a.name) :
    ctake (qualCString a) = claimQualName a := by
  have hct : ctake a.name = a.name := ctake_of_not_mem hz
  have hxm : ctake (bytes "xmlns") = bytes "xmlns" := by decide
  cases hns : a.attr_namespace with
  | xlink =>
    have hq : qualCString a = bytes "xlink:" ++ a.name := by
      simp only [qualCString, nsOf, hns, hct]
    rw [hq]
    simp only [claimQualName, hns]
    apply ctake_of_not_mem
    intro hm
    rcases List.mem_append.mp hm with hm | hm
    · revert hm; decide
    · exact hz hm
  | xml =>
    have hq : qualCString a = bytes "xml:" ++ a.name := by
      simp only [qualCString, nsOf, hns, hct]
    rw [hq]
    simp only [claimQualName, hns]
    apply ctake_of_not_mem
    intro hm
    rcases List.mem_append.mp hm with hm | hm
    · revert hm; decide
    · exact hz hm
  | none =>
    have hq : qualCString a = a.name := by
      simp only [qualCString, nsOf, hns]
    rw [hq, hct]
    simp only [claimQualName, hns, List.nil_append]
  | xmlns =>
    by_cases hx : a.name = bytes "xmlns"
    · have hq : qualCString a = a.name := by
        simp only [qualCString, nsOf, hns, hct, hxm, if_pos hx]
      rw [hq, hct]
      simp only [claimQualName, hns, if_pos hx, List.nil_append]
    · have hq : qualCString a = bytes "xmlns:" ++ a.name := by
        simp only [qualCString, nsOf, hns, hct, hxm, if_neg hx]
      rw [hq]
      simp only [claimQualName, hns, if_neg hx]
      apply ctake_of_not_mem
      intro hm
      rcases List.mem_append.mp hm with hm | hm
      · revert hm; decide
      · exact hz hm

/-- C1: for every attribute installed on a built element, the final qualified
name observed by the DOM layer is exactly the attribute's original name
prefixed by the string of its namespace category — "" for None, "xlink:" for
XLink, "xml:" for XML, "xmlns:" for XMLNS — except that an XMLNS attribute
named exactly "xmlns" receives no prefix; the attribute is found under that
name with its value. -/
theorem C1_attr_qualified_name (el : RubyAttrs) (a : GumboAttribute)
    (hz : (0 : Nat) ∉ a.name) (hnodup : (el.map Prod.fst).Nodup)
    (hsucc : (installAttribute el a).1.isSome = true) :
    (installAttribute el a).1 = some (claimQualName a)
    ∧ attributeGet (installAttribute el a).2 (claimQualName a)
        = some (claimQualName a, ctake a.value) := by
  have hq := ctake_qualCString_eq_claim a hz
  rw [installAttribute] at hsucc ⊢
  have := xmlNewProp_name_get el (qualCString a) a.value hnodup hsucc
  rw [hq] at this
  exact this

theorem C1_witness :
    ((installAttribute [] ⟨GumboAttrNamespace.xlink, bytes "href", bytes "u"⟩).1
        = some (claimQualName ⟨GumboAttrNamespace.xlink, bytes "href", bytes "u"⟩))
    ∧ attributeGet
        (installAttribute [] ⟨GumboAttrNamespace.xlink, bytes "href", bytes "u"⟩).2
        (claimQualName ⟨GumboAttrNamespace.xlink, bytes "href", bytes "u"⟩)
      = some (claimQualName ⟨GumboAttrNamespace.xlink, bytes "href", bytes "u"⟩,
          ctake (bytes "u")) :=
  C1_attr_qualified_name [] ⟨GumboAttrNamespace.xlink, bytes "href", bytes "u"⟩
    (by decide) (by decide) (by decide)

theorem hasKey_remove_of_not {el : RubyAttrs} {k k' : Bytes}
    (h : hasKey el k' = false) : hasKey (remove_attribute el k) k' = false := by
  cases h' : hasKey (remove_attribute el k) k' with
  | false => rfl
  | true => exact absurd (hasKey_remove_imp h') (by simp [h])

/-- C2: for every attribute whose qualified name holds a colon, a successful
installation leaves exactly one attribute under the colon-containing name,
that attribute carrying the installed value, none under the dummy key that
was used, and no name that was not already present besides the installed
one. -/
theorem C2_colon_attr_install (el : RubyAttrs) (name value : Bytes)
    (hnodup : (el.map Prod.fst).Nodup) (hcolon : 58 ∈ ctake name)
    (hsucc : (xmlNewProp el name value).1.isSome = true) :
    ((xmlNewProp el name value).2.countP fun p => p.1 == ctake name) = 1
    ∧ attributeGet (xmlNewProp el name value).2 (ctake name)
        = some (ctake name, ctake value)
    ∧ (∀ d, find_dummy_key el = some d →
        hasKey (xmlNewProp el name value).2 d = false)
    ∧ ∀ k, hasKey (xmlNewProp el name value).2 k = true →
        hasKey el k = true ∨ k = ctake name := by
  cases hfind : find_dummy_key el with
  | none => simp [xmlNewProp, hcolon, hfind] at hsucc
  | some dmy =>
    obtain ⟨hfree, hwf, _⟩ := find_dummy_key_spec hfind
    have hne : dmy ≠ ctake name := by
      intro he
      have := hwf.2 58 (he ▸ hcolon)
      omega
    rw [xmlNewProp_colon_spec el name value hcolon hfind]
    refine ⟨?_, ?_, ?_, ?_⟩
    · rw [List.countP_append, countP_remove_eq_zero hnodup]
      simp
    · exact attributeGet_append_single _ (hasKey_remove_self_of_nodup hnodup)
    · intro d hd
      injection hd with hd'
      subst hd'
      rw [hasKey_append, hasKey_remove_of_not hfree]
      simp [hasKey]
      exact fun he => hne he.symm
    · intro k hk
      rw [hasKey_append] at hk
      rcases Bool.or_eq_true_iff.mp hk with hk | hk
      · exact Or.inl (hasKey_remove_imp hk)
      · right
        simp [hasKey] at hk
        exact hk.symm

theorem C2_witness :
    ((xmlNewProp [] (bytes "xml:lang") (bytes "en")).2.countP
        fun p => p.1 == ctake (bytes "xml:lang")) = 1
    ∧ attributeGet (xmlNewProp [] (bytes "xml:lang") (bytes "en")).2
        (ctake (bytes "xml:lang"))
        = some (ctake (bytes "xml:lang"), ctake (bytes "en"))
    ∧ (∀ d, find_dummy_key [] = some d →
        hasKey (xmlNewProp [] (bytes "xml:lang") (bytes "en")).2 d = false)
    ∧ ∀ k, hasKey (xmlNewProp [] (bytes "xml:lang") (bytes "en")).2 k = true →
        hasKey [] k = true ∨ k = ctake (bytes "xml:lang") :=
  C2_colon_attr_install [] (bytes "xml:lang") (bytes "en")
    (by decide) (by decide) (by decide)

/-- C3: the built element's attributes appear in the parse tree's original
attribute order (as the qualified names with their values) and its children
appear in the original child order, children whose walk produces no node
being skipped. -/
theorem C3_order_preservation (name : Bytes) (attrs : List GumboAttribute)
    (children : List GumboNode)
    (h1 : (attrs.map instName).Nodup) (h2 : attrs.length ≤ 475254) :
    walk_element name attrs children
      = XmlNode.element (ctake name)
          (attrs.map fun a => (instName a, ctake a.value))
          (children.filterMap walk_tree) := by
  rw [walk_element, walkChildren_eq_filterMap]
  rw [installAttrs_append_spec attrs [] (by simpa using h1) (by simpa using h2)]
  simp

theorem C3_witness :
    walk_element (bytes "p")
        [⟨GumboAttrNamespace.none, bytes "a", bytes "1"⟩,
         ⟨GumboAttrNamespace.none, bytes "b", bytes "2"⟩]
        [GumboNode.text (bytes "x"), GumboNode.comment (bytes "y")]
      = XmlNode.element (ctake (bytes "p"))
          ([⟨GumboAttrNamespace.none, bytes "a", bytes "1"⟩,
            ⟨GumboAttrNamespace.none, bytes "b", bytes "2"⟩].map
              fun a => (instName a, ctake a.value))
          ([GumboNode.text (bytes "x"),
            GumboNode.comment (bytes "y")].filterMap walk_tree) :=
  C3_order_preservation (bytes "p") _ _ (by decide) (by decide)

theorem parse_docOpt_isSome (output : GumboOutput) :
    ∃ doc0, (if output.document.has_doctype then
        new_html_doc (some output.document.name)
          (if cNonEmpty output.document.system_identifier
            then some output.document.system_identifier else none)
          (if cNonEmpty output.document.public_identifier
            then some output.document.public_identifier else none)
      else new_html_doc none none none) = some doc0 := by
  by_cases hd : output.document.has_doctype
  · rw [if_pos hd]
    exact Option.isSome_iff_exists.mp (new_html_doc_some_isSome _ _ _)
  · rw [if_neg hd]
    exact ⟨_, new_html_doc_nodtd⟩

/-- C4: a parsed document declaring doctype name html with empty public and
system identifiers synthesizes a document whose internal subset has name
html and null public and system identifiers. -/
theorem C4_doctype_html_empty_ids (fmt : GumboError → Bytes)
    (output : GumboOutput) (url : Option Bytes)
    (h1 : output.document.has_doctype = true)
    (h2 : output.document.name = bytes "html")
    (h3 : cNonEmpty output.document.public_identifier = false)
    (h4 : cNonEmpty output.document.system_identifier = false) :
    ∃ d, parse fmt output url = some d
      ∧ d.internalSubset = some ⟨bytes "html", none, none⟩ := by
  have hdoc : (if output.document.has_doctype then
      new_html_doc (some output.document.name)
        (if cNonEmpty output.document.system_identifier
          then some output.document.system_identifier else none)
        (if cNonEmpty output.document.public_identifier
          then some output.document.public_identifier else none)
    else new_html_doc none none none)
      = some (create_internal_subset (removeIntSubset (DocumentNew none (some [])))
          (ctake (bytes "html")) none none) := by
    rw [if_pos h1, h2, h3, h4]
    simp only [Bool.false_eq_true, if_false]
    rw [new_html_doc.eq_def, if_pos ⟨rfl, rfl⟩]
  refine ⟨_, parse_eq_some fmt output url _ hdoc, ?_⟩
  have hh : ctake (bytes "html") = bytes "html" := by decide
  simp [create_internal_subset, hh]

theorem C4_witness :
    ∃ d, parse (fun _ => []) ⟨⟨true, bytes "html", [], [], []⟩, []⟩ none = some d
      ∧ d.internalSubset = some ⟨bytes "html", none, none⟩ :=
  C4_doctype_html_empty_ids (fun _ => []) ⟨⟨true, bytes "html", [], [], []⟩, []⟩
    none rfl rfl rfl rfl

/-- C5: a parse with a nonempty error list attaches to the document exactly
one translated record per parser error, in emission order, each carrying the
rendered message, the caller's url as file, the error's line, column and raw
type code, and the fixed constants domain = 1 (parser), code = 1 (internal
error), level = 2 (error). -/
theorem C5_error_translation (fmt : GumboError → Bytes) (output : GumboOutput)
    (url : Option Bytes) (hne : output.errors ≠ []) :
    ∃ d, parse fmt output url = some d
      ∧ d.errors = some (output.errors.map (mkSyntaxError fmt url))
      ∧ (output.errors.map (mkSyntaxError fmt url)).length = output.errors.length
      ∧ ∀ e, mkSyntaxError fmt url e
          = { message := fmt e, domain := 1, code := 1, level := 2, file := url,
              line := e.line, column := e.column, int1 := e.type } := by
  obtain ⟨doc0, hdoc⟩ := parse_docOpt_isSome output
  refine ⟨_, parse_eq_some fmt output url doc0 hdoc, ?_, by simp, fun e => rfl⟩
  have hlen : output.errors.length ≠ 0 := by
    simpa using fun h => hne (List.length_eq_zero.mp h)
  simp only [if_pos hlen]
  rw [buildErrors_eq_map]
  simp

theorem C5_witness :
    ∃ d, parse (fun e => [e.type])
          ⟨⟨false, [], [], [], []⟩, [⟨1, 2, 3⟩, ⟨4, 5, 6⟩]⟩ none = some d
      ∧ d.errors = some ([⟨1, 2, 3⟩, ⟨4, 5, 6⟩].map
          (mkSyntaxError (fun e => [e.type]) none))
      ∧ (([⟨1, 2, 3⟩, ⟨4, 5, 6⟩] : List GumboError).map
          (mkSyntaxError (fun e => [e.type]) none)).length
          = ([⟨1, 2, 3⟩, ⟨4, 5, 6⟩] : List GumboError).length
      ∧ ∀ e, mkSyntaxError (fun e => [e.type]) none e
          = { message := [e.type], domain := 1, code := 1, level := 2,
              file := none, line := e.line, column := e.column, int1 := e.type } :=
  C5_error_translation (fun e => [e.type])
    ⟨⟨false, [], [], [], []⟩, [⟨1, 2, 3⟩, ⟨4, 5, 6⟩]⟩ none (by decide)

/-- C6 (counterexample): a CDATA payload with an embedded zero byte is not
copied in full with its exact byte length — the created node carries only the
bytes before the zero. -/
theorem C6_cdata_counterexample :
    walk_tree (GumboNode.cdata [104, 0, 105]) = some (XmlNode.cdata [104])
    ∧ ([104] : Bytes) ≠ [104, 0, 105] :=
  ⟨rfl, by decide⟩

/-- C6 (amended): the created CDATA node carries the payload truncated at its
first zero byte, with length strlen(payload) — the null-terminated length —
so a payload without zero bytes is copied in full and one with an embedded
zero byte is truncated there. -/
theorem C6_cdata_strlen (t : Bytes) :
    walk_tree (GumboNode.cdata t) = some (XmlNode.cdata (ctake t))
    ∧ (ctake t).length = cstrlen t
    ∧ (∀ b ∈ ctake t, b ≠ 0)
    ∧ ((0 : Nat) ∉ t → ctake t = t) := by
  refine ⟨rfl, length_ctake t, ?_, fun h => ctake_of_not_mem h⟩
  intro b hb hb0
  exact zero_not_mem_ctake t (hb0 ▸ hb)

/-- C7 (counterexample): with a..z and "aa" taken, the generator returns
"ba", although "ab" is free and lexicographically earlier — the enumeration
is not lexicographic within a length. -/
theorem C7_lexicographic_counterexample :
    find_dummy_key elC7 = some [98, 97]
    ∧ hasKey elC7 [97, 98] = false
    ∧ List.Lex (· < ·) [97, 98] [98, 97]
    ∧ ([97, 98] : Bytes) ≠ [98, 97] :=
  ⟨by decide, by decide, List.Lex.rel (by norm_num), by decide⟩

/-- C7 (amended): the dummy-key generator enumerates its candidates starting
at "a" ordered by length and, within a length, colexicographically (the
counter steps its first character fastest); it skips the keys already
present, returns the first free candidate, and fails only on exhaustion,
which requires at least 475254 (more than 475000) attributes. -/
theorem C7_dummy_enumeration (el : RubyAttrs) :
    find_dummy_key el = dummyCandidates.find? (fun k => !hasKey el k)
    ∧ dummyCandidates.head? = some [97]
    ∧ List.Chain' shortColexLt dummyCandidates
    ∧ (∀ k, find_dummy_key el = some k → hasKey el k = false)
    ∧ (find_dummy_key el = none → 475254 ≤ el.length) :=
  ⟨find_dummy_key_eq_find? el, dummyCandidates_head, dummyCandidates_chain_colex,
    fun _ h => (find_dummy_key_spec h).1, find_dummy_key_none_bound⟩

/-- C8: when installing a colon-containing attribute fails (the C function
returns Qnil), the element's attribute collection is left unchanged, and
walk_element's loop just moves on to the remaining attributes. -/
theorem C8_failure_noop (el : RubyAttrs) (name value : Bytes)
    (hfail : (xmlNewProp el name value).1 = none) :
    (xmlNewProp el name value).2 = el
    ∧ ∀ (a : GumboAttribute) (rest : List GumboAttribute),
        qualCString a = name → a.value = value →
        installAttrs (a :: rest) el = installAttrs rest el := by
  have hframe := xmlNewProp_fail_frame el name value hfail
  refine ⟨hframe, ?_⟩
  intro a rest hq hv
  have hstep : (installAttribute el a).2 = el := by
    rw [installAttribute, hq, hv, hframe]
  simp only [installAttrs, List.foldl_cons, hstep]

theorem xmlNewProp_elAll_fail :
    (xmlNewProp elAll (bytes "xml:lang") (bytes "v")).1 = none := by
  have hc : (58 : Nat) ∈ ctake (bytes "xml:lang") := by decide
  simp [xmlNewProp, hc, find_dummy_key_elAll]

theorem C8_witness :
    (xmlNewProp elAll (bytes "xml:lang") (bytes "v")).2 = elAll :=
  (C8_failure_noop elAll (bytes "xml:lang") (bytes "v") xmlNewProp_elAll_fail).1

theorem DocumentNew_errors (uri ext : Option Bytes) :
    (DocumentNew uri ext).errors = none := by
  rw [DocumentNew]
  split <;> rfl

theorem new_html_doc_errors_none {dtd sys pub : Option Bytes} {doc : XmlDocument}
    (h : new_html_doc dtd sys pub = some doc) : doc.errors = none := by
  rw [new_html_doc.eq_def] at h
  by_cases hc : sys = none ∧ pub = none
  · rw [if_pos hc] at h
    cases dtd with
    | some n =>
      have := Option.some.inj h
      rw [← this]
      simp [create_internal_subset, removeIntSubset, DocumentNew_errors]
    | none =>
      have := Option.some.inj h
      rw [← this]
      simp [removeIntSubset, DocumentNew_errors]
  · rw [if_neg hc] at h
    cases dtd with
    | some n =>
      have := Option.some.inj h
      rw [← this]
      simp [renameIntSubset, DocumentNew_errors]
    | none => exact absurd h (by simp)

theorem parse_docOpt_errors_none {output : GumboOutput} {doc0 : XmlDocument}
    (h : (if output.document.has_doctype then
        new_html_doc (some output.document.name)
          (if cNonEmpty output.document.system_identifier
            then some output.document.system_identifier else none)
          (if cNonEmpty output.document.public_identifier
            then some output.document.public_identifier else none)
      else new_html_doc none none none) = some doc0) : doc0.errors = none := by
  by_cases hdt : output.document.has_doctype
  · rw [if_pos hdt] at h
    exact new_html_doc_errors_none h
  · rw [if_neg hdt] at h
    exact new_html_doc_errors_none h

/-- C9: when the parser reports zero errors, parse leaves the document's
errors property unset. -/
theorem C9_no_errors_untouched (fmt : GumboError → Bytes) (output : GumboOutput)
    (url : Option Bytes) (h : output.errors = [])
    (d : XmlDocument) (hd : parse fmt output url = some d) :
    d.errors = none := by
  obtain ⟨doc0, hdoc⟩ := parse_docOpt_isSome output
  rw [parse_eq_some fmt output url doc0 hdoc] at hd
  have hxd := Option.some.inj hd
  rw [← hxd]
  have hz : ¬ output.errors.length ≠ 0 := by simp [h]
  simp only [if_neg hz]
  exact parse_docOpt_errors_none hdoc

theorem C9_witness :
    (⟨⟨false, [], [], [], []⟩, []⟩ : GumboOutput).errors = []
    ∧ parse (fun _ => []) ⟨⟨false, [], [], [], []⟩, []⟩ none
        = some ⟨none, [], none⟩
    ∧ (⟨none, [], none⟩ : XmlDocument).errors = none :=
  ⟨rfl, rfl,
    C9_no_errors_untouched (fun _ => []) ⟨⟨false, [], [], [], []⟩, []⟩ none rfl
      ⟨none, [], none⟩ rfl⟩

/-- C10: the assert in new_html_doc's non-null-identifier branch fires
exactly when no doctype name is supplied with a non-null identifier, and
parse never reaches that state: it returns a document for every parser
output. -/
theorem C10_doctype_assert :
    (∀ (dtd sys pub : Option Bytes),
        new_html_doc dtd sys pub = none ↔ dtd = none ∧ ¬(sys = none ∧ pub = none))
    ∧ ∀ (fmt : GumboError → Bytes) (output : GumboOutput) (url : Option Bytes),
        (parse fmt output url).isSome = true :=
  ⟨new_html_doc_none_iff, parse_isSome⟩
